import Mathlib

namespace LocalHistory

/-- Strings are modelled as lists of Unicode scalar values. -/
abbrev Str := List Char

/-- Characters that ECMAScript encodeURI leaves unescaped:
letters, digits, uriMark, uriReserved and the hash sign. -/
def uriPreserved (c : Char) : Bool :=
  let n := c.toNat
  (65 ≤ n && n ≤ 90) || (97 ≤ n && n ≤ 122) || (48 ≤ n && n ≤ 57) ||
  [45, 95, 46, 33, 126, 42, 39, 40, 41, 59, 47, 63, 58, 64, 38, 61, 43, 36, 44, 35].contains n

/-- Upper-case hexadecimal digit, as produced by the ECMAScript Encode algorithm. -/
def hexDigitChar (d : Nat) : Char :=
  if d < 10 then Char.ofNat (48 + d) else Char.ofNat (55 + d)

/-- Value of a hexadecimal digit character (either case), none otherwise. -/
def hexVal (c : Char) : Option Nat :=
  let n := c.toNat
  if 48 ≤ n && n ≤ 57 then some (n - 48)
  else if 65 ≤ n && n ≤ 70 then some (n - 55)
  else if 97 ≤ n && n ≤ 102 then some (n - 87)
  else none

/-- A percent escape of one octet. -/
def pct (b : Nat) : Str := ['%', hexDigitChar (b / 16), hexDigitChar (b % 16)]

/-- Percent-encoding of a single character as done by encodeURI: preserved
characters pass through, anything else is the percent escape of its UTF-8 octets. -/
def encodeChar (c : Char) : Str :=
  if uriPreserved c then [c]
  else
    let n := c.toNat
    if n < 0x80 then pct n
    else if n < 0x800 then pct (0xC0 + n / 64) ++ pct (0x80 + n % 64)
    else if n < 0x10000 then
      pct (0xE0 + n / 4096) ++ pct (0x80 + n / 64 % 64) ++ pct (0x80 + n % 64)
    else
      pct (0xF0 + n / 0x40000) ++ pct (0x80 + n / 4096 % 64) ++
        pct (0x80 + n / 64 % 64) ++ pct (0x80 + n % 64)

/-- Model of ECMAScript encodeURI over scalar-value strings. -/
def encodeURIStr : Str → Str
  | [] => []
  | c :: s => encodeChar c ++ encodeURIStr s

/-- Parse one percent escape: a '%' followed by two hex digits; yields the octet. -/
def parseEsc : Str → Option (Nat × Str)
  | '%' :: a :: b :: r =>
    match hexVal a, hexVal b with
    | some va, some vb => some (16 * va + vb, r)
    | _, _ => none
  | _ => none

/-- Parse one percent-escaped UTF-8 continuation octet (10xxxxxx), yielding its payload. -/
def parseCont (l : Str) : Option (Nat × Str) :=
  (parseEsc l).bind fun p =>
    if 0x80 ≤ p.1 && p.1 < 0xC0 then some (p.1 - 0x80, p.2) else none

/-- Decode one percent-escape group as one UTF-8-encoded code point, per the
ECMAScript Decode algorithm: stray continuations, overlong encodings,
surrogates and out-of-range code points are rejected. -/
def decodeGroup (l : Str) : Option (Char × Str) :=
  (parseEsc l).bind fun p =>
    if p.1 < 0x80 then some (Char.ofNat p.1, p.2)
    else if p.1 < 0xC2 then none
    else if p.1 < 0xE0 then
      (parseCont p.2).bind fun q => some (Char.ofNat ((p.1 - 0xC0) * 64 + q.1), q.2)
    else if p.1 < 0xF0 then
      (parseCont p.2).bind fun q =>
      (parseCont q.2).bind fun q₂ =>
        if 0x800 ≤ (p.1 - 0xE0) * 4096 + q.1 * 64 + q₂.1 &&
            !(0xD800 ≤ (p.1 - 0xE0) * 4096 + q.1 * 64 + q₂.1 &&
              (p.1 - 0xE0) * 4096 + q.1 * 64 + q₂.1 < 0xE000) then
          some (Char.ofNat ((p.1 - 0xE0) * 4096 + q.1 * 64 + q₂.1), q₂.2)
        else none
    else if p.1 < 0xF5 then
      (parseCont p.2).bind fun q =>
      (parseCont q.2).bind fun q₂ =>
      (parseCont q₂.2).bind fun q₃ =>
        if 0x10000 ≤ (p.1 - 0xF0) * 0x40000 + q.1 * 4096 + q₂.1 * 64 + q₃.1 &&
            (p.1 - 0xF0) * 0x40000 + q.1 * 4096 + q₂.1 * 64 + q₃.1 < 0x110000 then
          some (Char.ofNat ((p.1 - 0xF0) * 0x40000 + q.1 * 4096 + q₂.1 * 64 + q₃.1), q₃.2)
        else none
    else none

theorem parseEsc_length {l : Str} {p : Nat × Str} (h : parseEsc l = some p) :
    p.2.length + 3 = l.length := by
  unfold parseEsc at h
  split at h
  · split at h
    · simp only [Option.some.injEq] at h
      subst h
      simp
    · simp at h
  · simp at h

theorem parseCont_length {l : Str} {p : Nat × Str} (h : parseCont l = some p) :
    p.2.length + 3 = l.length := by
  unfold parseCont at h
  rw [Option.bind_eq_some] at h
  obtain ⟨q, hq, h⟩ := h
  have := parseEsc_length hq
  split at h
  · simp only [Option.some.injEq] at h
    subst h
    simpa using this
  · simp at h

theorem decodeGroup_length {l r : Str} {c : Char} (h : decodeGroup l = some (c, r)) :
    r.length < l.length := by
  unfold decodeGroup at h
  rw [Option.bind_eq_some] at h
  obtain ⟨p, hp, h⟩ := h
  have hl := parseEsc_length hp
  split_ifs at h with h1 h2 h3 h4 h5
  · simp only [Option.some.injEq, Prod.mk.injEq] at h
    obtain ⟨-, rfl⟩ := h
    omega
  · rw [Option.bind_eq_some] at h
    obtain ⟨q, hq, h⟩ := h
    have i1 := parseCont_length hq
    simp only [Option.some.injEq, Prod.mk.injEq] at h
    obtain ⟨-, rfl⟩ := h
    omega
  · rw [Option.bind_eq_some] at h
    obtain ⟨q, hq, h⟩ := h
    rw [Option.bind_eq_some] at h
    obtain ⟨q₂, hq₂, h⟩ := h
    have i1 := parseCont_length hq
    have i2 := parseCont_length hq₂
    split at h
    · simp only [Option.some.injEq, Prod.mk.injEq] at h
      obtain ⟨-, rfl⟩ := h
      omega
    · simp at h
  · rw [Option.bind_eq_some] at h
    obtain ⟨q, hq, h⟩ := h
    rw [Option.bind_eq_some] at h
    obtain ⟨q₂, hq₂, h⟩ := h
    rw [Option.bind_eq_some] at h
    obtain ⟨q₃, hq₃, h⟩ := h
    have i1 := parseCont_length hq
    have i2 := parseCont_length hq₂
    have i3 := parseCont_length hq₃
    split at h
    · simp only [Option.some.injEq, Prod.mk.injEq] at h
      obtain ⟨-, rfl⟩ := h
      omega
    · simp at h

/-- Model of ECMAScript decodeURIComponent over scalar-value strings:
percent-escape groups decode as UTF-8 code points, other characters pass
through; none models a thrown URIError. -/
def decodeSeq : Str → Option Str
  | [] => some []
  | c :: rest =>
    if c = '%' then
      match h : decodeGroup (c :: rest) with
      | some (ch, r') => (decodeSeq r').map (ch :: ·)
      | none => none
    else (decodeSeq rest).map (c :: ·)
termination_by l => l.length
decreasing_by
  · exact decodeGroup_length h
  · simp

end LocalHistory

namespace LocalHistory

theorem hexVal_hexDigitChar (d : Nat) (h : d < 16) : hexVal (hexDigitChar d) = some d := by
  interval_cases d <;> decide

theorem parseEsc_pct (b : Nat) (hb : b < 256) (r : Str) :
    parseEsc (pct b ++ r) = some (b, r) := by
  have h1 : b / 16 < 16 := by omega
  have h2 : b % 16 < 16 := by omega
  show parseEsc ('%' :: hexDigitChar (b / 16) :: hexDigitChar (b % 16) :: r) = some (b, r)
  simp only [parseEsc]
  rw [hexVal_hexDigitChar _ h1, hexVal_hexDigitChar _ h2]
  show some (16 * (b / 16) + b % 16, r) = some (b, r)
  have hb' : 16 * (b / 16) + b % 16 = b := by omega
  rw [hb']

theorem parseCont_pct (b : Nat) (hb1 : 0x80 ≤ b) (hb2 : b < 0xC0) (r : Str) :
    parseCont (pct b ++ r) = some (b - 0x80, r) := by
  unfold parseCont
  rw [parseEsc_pct b (by omega) r]
  show (if 0x80 ≤ b && b < 0xC0 then some (b - 0x80, r) else none) = some (b - 0x80, r)
  rw [if_pos (by simp only [decide_eq_true_eq, Bool.and_eq_true]; omega)]

theorem decodeSeq_nil : decodeSeq [] = some [] := by
  rw [decodeSeq]

theorem decodeSeq_cons_lit (c : Char) (h : ¬ c = '%') (r : Str) :
    decodeSeq (c :: r) = (decodeSeq r).map (c :: ·) := by
  rw [decodeSeq]
  rw [if_neg h]

theorem decodeSeq_group {rest r' : Str} {ch : Char}
    (hg : decodeGroup ('%' :: rest) = some (ch, r')) :
    decodeSeq ('%' :: rest) = (decodeSeq r').map (ch :: ·) := by
  rw [decodeSeq]
  rw [if_pos rfl]
  split
  · rename_i ch' r'' heq
    rw [hg] at heq
    simp only [Option.some.injEq, Prod.mk.injEq] at heq
    obtain ⟨rfl, rfl⟩ := heq
    rfl
  · rename_i heq
    rw [hg] at heq
    simp at heq

end LocalHistory

namespace LocalHistory

theorem charValidRange (c : Char) :
    c.toNat < 0xD800 ∨ (0xE000 ≤ c.toNat ∧ c.toNat < 0x110000) := by
  have hv := c.valid
  rcases hv with h | ⟨h1, h2⟩
  · left
    exact_mod_cast h
  · right
    constructor <;> exact_mod_cast ‹_›

theorem decodeGroup_encodeChar (c : Char) (hp : uriPreserved c = false) (r : Str) :
    decodeGroup (encodeChar c ++ r) = some (c, r) := by
  have hv := charValidRange c
  rw [encodeChar, hp]
  simp only [Bool.false_eq_true, if_false]
  by_cases h1 : c.toNat < 0x80
  · rw [if_pos h1]
    unfold decodeGroup
    rw [parseEsc_pct _ (by omega) r]
    simp only [Option.some_bind]
    rw [if_pos (show (c.toNat < 128) from h1)]
    rw [Char.ofNat_toNat]
  · rw [if_neg h1]
    by_cases h2 : c.toNat < 0x800
    · rw [if_pos h2]
      rw [List.append_assoc]
      unfold decodeGroup
      rw [parseEsc_pct _ (by omega)]
      simp only [Option.some_bind]
      rw [if_neg (show ¬((0xC0 + c.toNat / 64 : Nat) < 128) by omega)]
      rw [if_neg (show ¬((0xC0 + c.toNat / 64 : Nat) < 194) by omega)]
      rw [if_pos (show (0xC0 + c.toNat / 64 : Nat) < 224 by omega)]
      rw [parseCont_pct _ (by omega) (by omega)]
      simp only [Option.some_bind]
      show some (Char.ofNat ((0xC0 + c.toNat / 64 - 0xC0) * 64 + (0x80 + c.toNat % 64 - 0x80)), r)
        = some (c, r)
      have he : (0xC0 + c.toNat / 64 - 0xC0) * 64 + (0x80 + c.toNat % 64 - 0x80) = c.toNat := by
        omega
      rw [he, Char.ofNat_toNat]
    · rw [if_neg h2]
      by_cases h3 : c.toNat < 0x10000
      · rw [if_pos h3]
        rw [List.append_assoc, List.append_assoc]
        unfold decodeGroup
        rw [parseEsc_pct _ (by omega)]
        simp only [Option.some_bind]
        rw [if_neg (show ¬((0xE0 + c.toNat / 4096 : Nat) < 128) by omega)]
        rw [if_neg (show ¬((0xE0 + c.toNat / 4096 : Nat) < 194) by omega)]
        rw [if_neg (show ¬((0xE0 + c.toNat / 4096 : Nat) < 224) by omega)]
        rw [if_pos (show (0xE0 + c.toNat / 4096 : Nat) < 240 by omega)]
        rw [parseCont_pct _ (by omega) (by omega)]
        simp only [Option.some_bind]
        rw [parseCont_pct _ (by omega) (by omega)]
        simp only [Option.some_bind]
        show (if _ then some (Char.ofNat ((0xE0 + c.toNat / 4096 - 0xE0) * 4096 +
            (0x80 + c.toNat / 64 % 64 - 0x80) * 64 + (0x80 + c.toNat % 64 - 0x80)), r)
          else none) = some (c, r)
        have he : (0xE0 + c.toNat / 4096 - 0xE0) * 4096 +
            (0x80 + c.toNat / 64 % 64 - 0x80) * 64 + (0x80 + c.toNat % 64 - 0x80) = c.toNat := by
          omega
        rw [he]
        rw [if_pos (by simp only [Bool.and_eq_true, decide_eq_true_eq, Bool.not_eq_true',
          Bool.and_eq_false_iff, decide_eq_false_iff_not, not_lt, not_le]; omega)]
        rw [Char.ofNat_toNat]
      · rw [if_neg h3]
        rw [List.append_assoc, List.append_assoc, List.append_assoc]
        unfold decodeGroup
        rw [parseEsc_pct _ (by omega)]
        simp only [Option.some_bind]
        have hb : c.toNat / 0x40000 < 5 := by omega
        rw [if_neg (show ¬((0xF0 + c.toNat / 0x40000 : Nat) < 128) by omega)]
        rw [if_neg (show ¬((0xF0 + c.toNat / 0x40000 : Nat) < 194) by omega)]
        rw [if_neg (show ¬((0xF0 + c.toNat / 0x40000 : Nat) < 224) by omega)]
        rw [if_neg (show ¬((0xF0 + c.toNat / 0x40000 : Nat) < 240) by omega)]
        rw [if_pos (show (0xF0 + c.toNat / 0x40000 : Nat) < 245 by omega)]
        rw [parseCont_pct _ (by omega) (by omega)]
        simp only [Option.some_bind]
        rw [parseCont_pct _ (by omega) (by omega)]
        simp only [Option.some_bind]
        rw [parseCont_pct _ (by omega) (by omega)]
        simp only [Option.some_bind]
        show (if _ then some (Char.ofNat ((0xF0 + c.toNat / 0x40000 - 0xF0) * 0x40000 +
            (0x80 + c.toNat / 4096 % 64 - 0x80) * 4096 +
            (0x80 + c.toNat / 64 % 64 - 0x80) * 64 + (0x80 + c.toNat % 64 - 0x80)), r)
          else none) = some (c, r)
        have he : (0xF0 + c.toNat / 0x40000 - 0xF0) * 0x40000 +
            (0x80 + c.toNat / 4096 % 64 - 0x80) * 4096 +
            (0x80 + c.toNat / 64 % 64 - 0x80) * 64 + (0x80 + c.toNat % 64 - 0x80) = c.toNat := by
          omega
        rw [he]
        rw [if_pos (by simp only [Bool.and_eq_true, decide_eq_true_eq]; omega)]
        rw [Char.ofNat_toNat]

end LocalHistory

namespace LocalHistory

theorem decodeSeq_encodeChar (c : Char) (r : Str) :
    decodeSeq (encodeChar c ++ r) = (decodeSeq r).map (c :: ·) := by
  by_cases hp : uriPreserved c
  · have hcp : ¬ c = '%' := by
      intro h
      subst h
      exact absurd hp (by decide)
    rw [show encodeChar c ++ r = c :: r by rw [encodeChar, if_pos hp]; rfl]
    exact decodeSeq_cons_lit c hcp r
  · have hp' : uriPreserved c = false := by simpa using hp
    have hg := decodeGroup_encodeChar c hp' r
    obtain ⟨t, ht⟩ : ∃ t, encodeChar c ++ r = '%' :: t := by
      rw [encodeChar, hp']
      simp only [Bool.false_eq_true, if_false]
      split_ifs <;> exact ⟨_, rfl⟩
    rw [ht] at hg ⊢
    exact decodeSeq_group hg

theorem decodeSeq_encodeURIStr (p : Str) : decodeSeq (encodeURIStr p) = some p := by
  induction p with
  | nil => exact decodeSeq_nil
  | cons c p ih =>
    rw [encodeURIStr, decodeSeq_encodeChar, ih]
    rfl

/-- uriToPath from history-parser.ts: strip a leading file:// and percent-decode;
error models a thrown URIError from decodeURIComponent. -/
def uriToPath (u : Str) : Except Unit Str :=
  if List.isPrefixOf "file://".data u then
    match decodeSeq (u.drop 7) with
    | some p => .ok p
    | none => .error ()
  else .ok u

/-- pathToUri from history-parser.ts: prepend file:// to the encodeURI encoding
unless the input is already a file:// URI. -/
def pathToUri (p : Str) : Str :=
  if List.isPrefixOf "file://".data p then p
  else "file://".data ++ encodeURIStr p

/-- Characters deemed safe for the round-trip claim: encodeURI's unescaped
alphanumerics and marks, the path separator, the space, and all non-ASCII
scalar values; reserved URI characters other than the separator are excluded. -/
def safeChar (c : Char) : Bool :=
  let n := c.toNat
  (65 ≤ n && n ≤ 90) || (97 ≤ n && n ≤ 122) || (48 ≤ n && n ≤ 57) ||
  [45, 95, 46, 33, 126, 42, 39, 40, 41].contains n || n == 32 || n == 47 || 128 ≤ n

theorem safe_no_uri_start {p : Str} (hp : ∀ c ∈ p, safeChar c = true) :
    List.isPrefixOf "file://".data p = false := by
  by_contra h
  rw [Bool.not_eq_false, List.isPrefixOf_iff_prefix] at h
  obtain ⟨t, ht⟩ := h
  have hmem : (':' : Char) ∈ p := by
    rw [← ht]
    exact List.mem_append_left _ (by decide)
  have := hp _ hmem
  simp [safeChar] at this

theorem uriToPath_pathToUri {p : Str} (hp : ∀ c ∈ p, safeChar c = true) :
    uriToPath (pathToUri p) = .ok p := by
  rw [pathToUri, safe_no_uri_start hp]
  simp only [Bool.false_eq_true, if_false]
  rw [uriToPath, if_pos (by rw [ List.isPrefixOf_iff_prefix]; exact ⟨_, rfl⟩)]
  rw [List.drop_left' (by decide), decodeSeq_encodeURIStr]

end LocalHistory

namespace LocalHistory

/-! Path utilities: JS toLowerCase (modelled on the ASCII range, matching
Lean's Char.toLower), Node posix path.resolve and path.dirname. -/

/-- Case folding used for case-insensitive path comparison and search. -/
def lowerStr (s : Str) : Str := s.map Char.toLower

/-- Process already-split path components, handling '.', '..' and empty parts,
as Node's posix path normalization does for absolute paths. -/
def resolveComps (acc : List Str) : List Str → List Str
  | [] => acc
  | c :: rest =>
    if c = [] ∨ c = ['.'] then resolveComps acc rest
    else if c = ['.', '.'] then resolveComps acc.dropLast rest
    else resolveComps (acc ++ [c]) rest

/-- Interleave components with '/' separators. -/
def joinSlash : List Str → Str
  | [] => []
  | [c] => c
  | c :: rest => c ++ '/' :: joinSlash rest

/-- Model of Node posix path.resolve with a single argument, given an absolute
working directory: relative inputs are joined onto cwd, then the path is
normalized. -/
def resolvePath (cwd p : Str) : Str :=
  let full := if p.head? = some '/' then p else cwd ++ '/' :: p
  '/' :: joinSlash (resolveComps [] (full.splitOn '/'))

/-- Model of Node posix path.dirname: drop trailing separators, then the last
component, then separators before it. -/
def dirname (p : Str) : Str :=
  let r := p.reverse
  let r₁ := r.dropWhile (· == '/')
  if r₁ = [] then (if p = [] then ['.'] else ['/'])
  else
    let r₂ := r₁.dropWhile (· != '/')
    let r₃ := r₂.dropWhile (· == '/')
    if r₃ = [] then (if r₂ = [] then ['.'] else ['/'])
    else r₃.reverse

/-- Join a directory path and a file name, as path.join is used here (both
arguments are clean, so no normalization is needed). -/
def joinPath (a b : Str) : Str := a ++ '/' :: b

/-! Data model of history-parser.ts. -/

/-- One historical snapshot of a file (interface HistoryEntry). -/
structure HistoryEntry where
  timestamp : Int
  content : Str
  filePath : Str
  relativePath : Str
deriving DecidableEq

instance : Inhabited HistoryEntry := ⟨⟨0, [], [], []⟩⟩

/-- The complete timeline for one original file (interface FileHistory). -/
structure FileHistory where
  originalFilePath : Str
  entries : List HistoryEntry
deriving DecidableEq

/-- One file inside a snapshot subdirectory, with the outcomes of the two
syscalls performed on it: mtime none models statSync throwing, content none
models readFileSync throwing. -/
structure FileNode where
  name : Str
  mtime : Option Int
  content : Option Str
deriving DecidableEq

/-- The on-disk state of one per-file snapshot subdirectory. entriesJson is
the result of parseEntriesJson: none when entries.json is missing or
unparseable, some r for a parsed object whose resource field is r. listing
none models readdirSync throwing. -/
structure HashDirState where
  name : Str
  dirExists : Bool
  entriesJson : Option (Option Str)
  listing : Option (List FileNode)
deriving DecidableEq

/-- The snapshot store as seen by one query: the resolved root path, whether
it exists, and the subdirectory listing (none models readdirSync throwing).
Each query re-reads the store, so one Store value describes the disk during
one query. -/
structure Store where
  rootPath : Str
  rootExists : Bool
  rootListing : Option (List HashDirState)
deriving DecidableEq

/-- Comparator relation of entries.sort((a, b) => b.timestamp - a.timestamp):
a may precede b when b's timestamp is not above a's. -/
def entryRecencyLe (a b : HistoryEntry) : Prop := b.timestamp ≤ a.timestamp

instance : DecidableRel entryRecencyLe :=
  fun a b => inferInstanceAs (Decidable (b.timestamp ≤ a.timestamp))

instance : IsTotal HistoryEntry entryRecencyLe :=
  ⟨fun a b => le_total b.timestamp a.timestamp⟩

instance : IsTrans HistoryEntry entryRecencyLe :=
  ⟨fun _ _ _ hab hbc => le_trans hbc hab⟩

/-- Lexicographic comparison on code points, modelling the default
Array.prototype.sort string comparator for the file names iterated here. -/
def lexLeB : Str → Str → Bool
  | [], _ => true
  | _ :: _, [] => false
  | a :: s, b :: t =>
    if a.toNat < b.toNat then true
    else if b.toNat < a.toNat then false
    else lexLeB s t

/-- Name order on directory entries. -/
def nodeNameLe (a b : FileNode) : Prop := lexLeB a.name b.name = true

instance : DecidableRel nodeNameLe :=
  fun a b => inferInstanceAs (Decidable (lexLeB a.name b.name = true))

/-- The metadata descriptor's file name. -/
def entriesJsonName : Str := "entries.json".data

/-- The per-file loop of getFileHistory. statSync runs outside the inner try,
so a stat failure escapes to the outer catch and the whole directory fails
(none); a content read failure is caught by the inner catch and only skips
that file. -/
def readEntries (dirPath : Str) : List FileNode → Option (List HistoryEntry)
  | [] => some []
  | f :: rest =>
    match f.mtime with
    | none => none
    | some t =>
      match f.content with
      | none => readEntries dirPath rest
      | some c =>
        (readEntries dirPath rest).map
          (fun tl => ⟨t, c, joinPath dirPath f.name, f.name⟩ :: tl)

/-- getFileHistory from history-parser.ts, acting on the state of one
subdirectory. The resource guard follows the JS truthiness test
(!entriesJson || !entriesJson.resource), so an empty resource string also
yields none. -/
def getFileHistory (rootPath : Str) (d : HashDirState) : Option FileHistory :=
  if ¬ d.dirExists then none
  else
    match d.entriesJson with
    | none => none
    | some resource =>
      match resource with
      | none => none
      | some res =>
        if res = [] then none
        else
          match d.listing with
          | none => none
          | some files =>
            match readEntries (joinPath rootPath d.name)
                (List.insertionSort nodeNameLe
                  (files.filter (fun f => f.name != entriesJsonName))) with
            | none => none
            | some entries =>
              some ⟨res, List.insertionSort entryRecencyLe entries⟩

/-- getAllFileHistories: the composition of getHistoryDirectories (empty when
the root is missing or unreadable) with getFileHistory, dropping null
results. -/
def getAllFileHistories (s : Store) : List FileHistory :=
  if ¬ s.rootExists then []
  else
    match s.rootListing with
    | none => []
    | some dirs => dirs.filterMap (getFileHistory s.rootPath)

/-- The statistics record returned by getHistoryStats. -/
structure HistoryStats where
  totalFiles : Nat
  totalEntries : Nat
  historyDirExists : Bool
  historyDirPath : Str
deriving DecidableEq

/-- getHistoryStats from history-parser.ts. -/
def getHistoryStats (s : Store) : HistoryStats :=
  let histories := getAllFileHistories s
  { totalFiles := histories.length
    totalEntries := histories.foldl (fun sum h => sum + h.entries.length) 0
    historyDirExists := s.rootExists
    historyDirPath := s.rootPath }

/-- The scan loop of findHistoryByFilePath: each history in turn is checked
for an exact normalized match and then a case-insensitive one; a decode
error from uriToPath propagates. -/
def findLoop (normalizedTarget cwd : Str) : List FileHistory → Except Unit (Option FileHistory)
  | [] => .ok none
  | h :: rest =>
    match uriToPath h.originalFilePath with
    | .error e => .error e
    | .ok cleanHistoryPath =>
      if normalizedTarget = resolvePath cwd cleanHistoryPath then .ok (some h)
      else if lowerStr normalizedTarget = lowerStr (resolvePath cwd cleanHistoryPath) then
        .ok (some h)
      else findLoop normalizedTarget cwd rest

/-- findHistoryByFilePath from history-parser.ts. -/
def findHistoryByFilePath (cwd : Str) (s : Store) (targetFilePath : Str) :
    Except Unit (Option FileHistory) :=
  match uriToPath targetFilePath with
  | .error e => .error e
  | .ok cleanTargetPath =>
    findLoop (resolvePath cwd cleanTargetPath) cwd (getAllFileHistories s)

end LocalHistory

namespace LocalHistory

/-! Search engine: searchHistoryContent from index.ts. The searchTerm is
escaped so that every regex metacharacter is literal; the resulting pattern
is modelled by a parser accepting exactly literal-atom patterns, and g-flag
matching by a count of leftmost non-overlapping occurrences. -/

/-- The metacharacters escaped by searchTerm.replace. -/
def regexMeta : List Char :=
  ['.', '*', '+', '?', '^', '$', '\x7b', '\x7d', '(', ')', '|', '[', ']', '\\']

/-- The escaping replace call: a backslash is inserted before each
metacharacter. -/
def escapeRegExp : Str → Str
  | [] => []
  | c :: s =>
    if regexMeta.contains c then '\\' :: c :: escapeRegExp s else c :: escapeRegExp s

/-- Parse a regex pattern made only of literal atoms: an escaped
metacharacter stands for itself and any other non-metacharacter is a
literal. Patterns using metacharacter syntax are outside this model (none);
escaped search terms never produce them. -/
def parseLiteralPattern : Str → Option Str
  | [] => some []
  | c :: s =>
    if c = '\\' then
      match s with
      | c₂ :: s₂ =>
        if regexMeta.contains c₂ then (parseLiteralPattern s₂).map (c₂ :: ·) else none
      | [] => none
    else if regexMeta.contains c then none
    else (parseLiteralPattern s).map (c :: ·)

/-- Leftmost non-overlapping occurrences of a non-empty literal pattern, as
counted by String.prototype.match with the g flag. -/
def countLoop (pat : Str) : Str → Nat
  | [] => 0
  | c :: rest =>
    if List.isPrefixOf pat (c :: rest) then 1 + countLoop pat (rest.drop (pat.length - 1))
    else countLoop pat rest
termination_by l => l.length
decreasing_by
  · simp only [List.length_cons, List.length_drop]
    omega
  · simp

/-- Occurrence count including the empty pattern, which matches at every
position. -/
def countOccurrences (pat content : Str) : Nat :=
  if pat = [] then content.length + 1 else countLoop pat content

/-- Literal substring containment. -/
def containsSub (pat : Str) : Str → Bool
  | [] => List.isPrefixOf pat []
  | c :: rest => List.isPrefixOf pat (c :: rest) || containsSub pat rest

/-- Match count of entry.content.match(searchRegex): the compiled pattern is
interpreted as a literal when it parses as one (always the case for escaped
terms; general regex syntax is not modelled), with the i flag modelled by
case folding both sides. -/
def jsMatchCount (pattern : Str) (caseSensitive : Bool) (content : Str) : Nat :=
  match parseLiteralPattern pattern with
  | some lit =>
    if caseSensitive then countOccurrences lit content
    else countOccurrences (lowerStr lit) (lowerStr content)
  | none => 0

/-- One record of the search results array. The timestamp is kept as the raw
entry timestamp (the source formats it for display). -/
structure SearchResult where
  file : Str
  entryIndex : Nat
  timestamp : Int
  matchCount : Nat
deriving DecidableEq

/-- The entries.forEach loop of searchHistoryContent, carrying the running
index. -/
def searchEntriesLoop (file pattern : Str) (cs : Bool) : Nat → List HistoryEntry → List SearchResult
  | _, [] => []
  | i, e :: rest =>
    (if 0 < jsMatchCount pattern cs e.content
      then [⟨file, i, e.timestamp, jsMatchCount pattern cs e.content⟩] else []) ++
    searchEntriesLoop file pattern cs (i + 1) rest

/-- The outer loop over all histories. -/
def searchLoop (pattern : Str) (cs : Bool) : List FileHistory → List SearchResult
  | [] => []
  | h :: rest =>
    searchEntriesLoop h.originalFilePath pattern cs 0 h.entries ++ searchLoop pattern cs rest

/-- searchHistoryContent from index.ts. -/
def searchHistoryContent (s : Store) (searchTerm : Str) (caseSensitive : Bool) :
    List SearchResult :=
  searchLoop (escapeRegExp searchTerm) caseSensitive (getAllFileHistories s)

/-! Restore operation: restoreFromHistory from index.ts, over an explicit
file-system state for the restore target area. -/

/-- File-system state: regular files as an association list (later bindings
shadow earlier ones) and a set of directories. mkdirSync's recursive
creation of missing ancestors is abstracted to adding the one directory, on
which nothing here depends. -/
structure FS where
  files : List (Str × Str)
  dirs : List Str
deriving DecidableEq

/-- Content of a regular file, if present. -/
def FS.lookupFile (fs : FS) (p : Str) : Option Str := fs.files.lookup p

/-- fs.existsSync: true for a file or a directory. -/
def FS.existsB (fs : FS) (p : Str) : Bool :=
  (fs.files.lookup p).isSome || fs.dirs.contains p

/-- fs.writeFileSync / fs.copyFileSync destination update. -/
def FS.setFile (fs : FS) (p c : Str) : FS := ⟨(p, c) :: fs.files, fs.dirs⟩

/-- fs.mkdirSync. -/
def FS.addDir (fs : FS) (p : Str) : FS := ⟨fs.files, p :: fs.dirs⟩

/-- Decimal digit. -/
def digitChar (d : Nat) : Char := Char.ofNat (48 + d % 10)

/-- Decimal rendering with fuel (one digit is produced per ten-fold division,
so fuel n + 1 always suffices). -/
def renderNatAux : Nat → Nat → Str
  | 0, _ => []
  | fuel + 1, n =>
    if n < 10 then [digitChar n] else renderNatAux fuel (n / 10) ++ [digitChar (n % 10)]

/-- Decimal rendering of a natural number, as a JS template literal renders
Date.now(). -/
def renderNat (n : Nat) : Str := renderNatAux (n + 1) n

/-- The backup path template `targetPath ++ ".backup." ++ Date.now()`. -/
def backupPath (target : Str) (now : Nat) : Str :=
  target ++ ".backup.".data ++ renderNat now

/-- The distinct outcomes of restoreFromHistory, one constructor per return
site: not-found, invalid index (carrying the entry count the message is
built from), success with and without a backup, and the caught-error
result. -/
inductive RestoreResult where
  | notFound
  | invalidIndex (entryCount : Nat)
  | restoredWithBackup (backup : Str)
  | restoredNoBackup
  | failed
deriving DecidableEq

/-- restoreFromHistory from index.ts. Exceptions escaping before the try
block (URI decode errors) are Except errors; file-system errors inside the
try block are caught and produce the failed result, with the state as
mutated so far. -/
def restoreFromHistory (cwd : Str) (s : Store) (fs : FS) (filePath : Str)
    (entryIndex : Int) (createBackup : Bool) (now : Nat) :
    Except Unit RestoreResult × FS :=
  match findHistoryByFilePath cwd s filePath with
  | .error e => (.error e, fs)
  | .ok none => (.ok .notFound, fs)
  | .ok (some history) =>
    if entryIndex < 0 ∨ (history.entries.length : Int) ≤ entryIndex then
      (.ok (.invalidIndex history.entries.length), fs)
    else
      let entry := history.entries.getD entryIndex.toNat default
      match uriToPath history.originalFilePath, uriToPath filePath with
      | .ok originalPath, .ok inputPath =>
        let targetPath := if fs.existsB inputPath then inputPath else originalPath
        let dir := dirname targetPath
        let fs₁ := if fs.existsB dir then fs else fs.addDir dir
        if createBackup ∧ fs₁.existsB targetPath then
          match fs₁.lookupFile targetPath with
          | none => (.ok .failed, fs₁)
          | some current =>
            let bp := backupPath targetPath now
            if fs₁.dirs.contains bp then (.ok .failed, fs₁)
            else
              let fs₂ := fs₁.setFile bp current
              if fs₂.dirs.contains targetPath then (.ok .failed, fs₂)
              else (.ok (.restoredWithBackup bp), fs₂.setFile targetPath entry.content)
        else
          if fs₁.dirs.contains targetPath then (.ok .failed, fs₁)
          else (.ok .restoredNoBackup, fs₁.setFile targetPath entry.content)
      | _, _ => (.error (), fs)

end LocalHistory

namespace LocalHistory

theorem foldl_entries_sum (l : List FileHistory) (a : Nat) :
    l.foldl (fun sum h => sum + h.entries.length) a
      = a + (l.map (fun h => h.entries.length)).sum := by
  induction l generalizing a with
  | nil => simp
  | cons h t ih =>
    rw [List.foldl_cons, ih, List.map_cons, List.sum_cons]
    omega

/-- C8: for every store state, getHistoryStats returns totalEntries equal to
the sum of entries.length over all FileHistory values of getAllFileHistories,
and totalFiles equal to their count. -/
theorem getHistoryStats_totals (s : Store) :
    (getHistoryStats s).totalEntries
        = ((getAllFileHistories s).map (fun h => h.entries.length)).sum ∧
    (getHistoryStats s).totalFiles = (getAllFileHistories s).length := by
  constructor
  · show (getAllFileHistories s).foldl (fun sum h => sum + h.entries.length) 0 = _
    rw [foldl_entries_sum]
    omega
  · rfl

theorem getFileHistory_entries_sorted {root : Str} {d : HashDirState} {h : FileHistory}
    (hh : getFileHistory root d = some h) :
    List.Chain' (fun a b => b.timestamp ≤ a.timestamp) h.entries := by
  unfold getFileHistory at hh
  split at hh
  · simp at hh
  · split at hh
    · simp at hh
    · split at hh
      · simp at hh
      · split at hh
        · simp at hh
        · split at hh
          · simp at hh
          · split at hh
            · simp at hh
            · simp only [Option.some.injEq] at hh
              subst hh
              exact (List.sorted_insertionSort entryRecencyLe _).chain'

/-- C3: every FileHistory in getAllFileHistories has its entries sequence
sorted non-increasing by timestamp, for all adjacent indices. -/
theorem allFileHistories_sorted (s : Store) (h : FileHistory)
    (hmem : h ∈ getAllFileHistories s) :
    List.Chain' (fun a b => b.timestamp ≤ a.timestamp) h.entries := by
  unfold getAllFileHistories at hmem
  split at hmem
  · simp at hmem
  · split at hmem
    · simp at hmem
    · rw [List.mem_filterMap] at hmem
      obtain ⟨d, -, hd⟩ := hmem
      exact getFileHistory_entries_sorted hd

/-- C4: for paths of characters safe under the encoding scheme, uriToPath
inverts pathToUri, and uriToPath is the identity on any string that does not
start with file://. -/
theorem uri_roundtrip_claim (p : Str) (hp : ∀ c ∈ p, safeChar c = true) :
    uriToPath (pathToUri p) = .ok p ∧
    ∀ u : Str, List.isPrefixOf "file://".data u = false → uriToPath u = .ok u := by
  refine ⟨uriToPath_pathToUri hp, ?_⟩
  intro u hu
  rw [uriToPath]
  rw [hu]
  simp

/-- Witness for C4 at a concrete path containing a space and a non-ASCII
character. -/
theorem uri_roundtrip_claim_witness :
    (∀ c ∈ "/tmp/π file.txt".data, safeChar c = true) ∧
    (uriToPath (pathToUri "/tmp/π file.txt".data) = .ok "/tmp/π file.txt".data ∧
     ∀ u : Str, List.isPrefixOf "file://".data u = false → uriToPath u = .ok u) :=
  ⟨by decide, uri_roundtrip_claim "/tmp/π file.txt".data (by decide)⟩

/-- C5: with a matched history and an out-of-range index, restoreFromHistory
returns the invalid-index result carrying the entry count and leaves the
file system unchanged. -/
theorem restore_invalid_index (cwd : Str) (s : Store) (fs : FS) (filePath : Str)
    (entryIndex : Int) (createBackup : Bool) (now : Nat) (h : FileHistory)
    (hfind : findHistoryByFilePath cwd s filePath = .ok (some h))
    (hidx : entryIndex < 0 ∨ (h.entries.length : Int) ≤ entryIndex) :
    restoreFromHistory cwd s fs filePath entryIndex createBackup now
      = (.ok (.invalidIndex h.entries.length), fs) := by
  unfold restoreFromHistory
  rw [hfind]
  simp only [if_pos hidx]

end LocalHistory

namespace LocalHistory

instance {e a : Type} [DecidableEq e] [DecidableEq a] : DecidableEq (Except e a) := fun x y =>
  match x, y with
  | .ok v, .ok w =>
    if h : v = w then isTrue (by rw [h]) else isFalse (fun hc => by injection hc; contradiction)
  | .error v, .error w =>
    if h : v = w then isTrue (by rw [h]) else isFalse (fun hc => by injection hc; contradiction)
  | .ok _, .error _ => isFalse (fun hc => by injection hc)
  | .error _, .ok _ => isFalse (fun hc => by injection hc)

/-! Concrete store fixtures used by witnesses and counterexamples. -/

/-- A valid subdirectory with two snapshot files whose name order disagrees
with their timestamp order. -/
def sampleDir : HashDirState :=
  ⟨"1a2b".data, true, some (some "/x/y.txt".data),
   some [⟨"AAA".data, some 100, some "old".data⟩,
         ⟨"BBB".data, some 300, some "new".data⟩,
         ⟨"entries.json".data, some 50, some "meta".data⟩]⟩

/-- A store holding just sampleDir. -/
def sampleStore : Store := ⟨"/root/hist".data, true, some [sampleDir]⟩

/-- The FileHistory that sampleStore yields. -/
def sampleHistory : FileHistory :=
  ⟨"/x/y.txt".data,
   [⟨300, "new".data, "/root/hist/1a2b/BBB".data, "BBB".data⟩,
    ⟨100, "old".data, "/root/hist/1a2b/AAA".data, "AAA".data⟩]⟩

/-- Witness for C3: the sample history is produced by the store and its
entries are in non-increasing timestamp order even though the file named
AAA (read first) is the older snapshot. -/
theorem allFileHistories_sorted_witness :
    sampleHistory ∈ getAllFileHistories sampleStore ∧
    List.Chain' (fun a b => b.timestamp ≤ a.timestamp) sampleHistory.entries :=
  ⟨by decide, allFileHistories_sorted sampleStore sampleHistory (by decide)⟩

/-- Witness for C5: index 5 on the 2-entry sample history is rejected and the
file system is returned unchanged. -/
theorem restore_invalid_index_witness :
    (findHistoryByFilePath "/".data sampleStore "/x/y.txt".data = .ok (some sampleHistory) ∧
     ((5 : Int) < 0 ∨ ((sampleHistory.entries.length : Nat) : Int) ≤ 5)) ∧
    restoreFromHistory "/".data sampleStore ⟨[], []⟩ "/x/y.txt".data 5 true 99
      = (.ok (.invalidIndex sampleHistory.entries.length), ⟨[], []⟩) :=
  ⟨⟨by decide, by decide⟩,
   restore_invalid_index "/".data sampleStore ⟨[], []⟩ "/x/y.txt".data 5 true 99
     sampleHistory (by decide) (by decide)⟩

/-- The matching test applied to one history inside the findHistoryByFilePath
loop: exact normalized equality or case-insensitive equality, false when the
stored path does not decode. -/
def historyMatchesB (cwd nt : Str) (h : FileHistory) : Bool :=
  match uriToPath h.originalFilePath with
  | .error _ => false
  | .ok p => (resolvePath cwd p == nt) || (lowerStr (resolvePath cwd p) == lowerStr nt)

theorem findLoop_eq_find? (nt cwd : Str) (l : List FileHistory)
    (hall : ∀ h ∈ l, ∃ p, uriToPath h.originalFilePath = .ok p) :
    findLoop nt cwd l = .ok (l.find? (historyMatchesB cwd nt)) := by
  induction l with
  | nil => rfl
  | cons h t ih =>
    obtain ⟨p, hu⟩ := hall h (by simp)
    · simp only [findLoop, hu]
      rw [List.find?_cons]
      have hmb : historyMatchesB cwd nt h
          = ((resolvePath cwd p == nt) || (lowerStr (resolvePath cwd p) == lowerStr nt)) := by
        rw [historyMatchesB, hu]
      by_cases h1 : nt = resolvePath cwd p
      · have : historyMatchesB cwd nt h = true := by
          rw [hmb, h1]
          simp
        rw [this, if_pos h1]
      · by_cases h2 : lowerStr nt = lowerStr (resolvePath cwd p)
        · have : historyMatchesB cwd nt h = true := by
            rw [hmb, h2]
            simp
          rw [this, if_neg h1, if_pos h2]
        · have : historyMatchesB cwd nt h = false := by
            rw [hmb]
            simp only [Bool.or_eq_false_iff, beq_eq_false_iff_ne, ne_eq]
            exact ⟨fun he => h1 he.symm, fun he => h2 he.symm⟩
          rw [this, if_neg h1, if_neg h2]
          exact ih (fun g hg => hall g (List.mem_cons_of_mem _ hg))

/-- C1 amended: findHistoryByFilePath is a single pass; it returns the first
history, in getAllFileHistories order, whose normalized path matches the
normalized target exactly or case-insensitively, so an earlier
case-insensitive-only match shadows a later exact match. -/
theorem findHistory_single_pass (cwd : Str) (s : Store) (target ct : Str)
    (ht : uriToPath target = .ok ct)
    (hall : ∀ h ∈ getAllFileHistories s, ∃ p, uriToPath h.originalFilePath = .ok p) :
    findHistoryByFilePath cwd s target
      = .ok ((getAllFileHistories s).find? (historyMatchesB cwd (resolvePath cwd ct))) := by
  rw [findHistoryByFilePath, ht]
  exact findLoop_eq_find? _ _ _ hall

/-- A store whose first history matches the target only case-insensitively
while the second matches it exactly. -/
def shadowStore : Store :=
  ⟨"/h".data, true,
   some [⟨"d1".data, true, some (some "/A/B.TXT".data), some []⟩,
         ⟨"d2".data, true, some (some "/a/b.txt".data), some []⟩]⟩

/-- Counterexample for C1: the history whose normalized path equals the
normalized target exactly is in the store, yet the earlier
case-insensitive-only match is returned instead. -/
theorem find_shadow_counterexample :
    (⟨"/a/b.txt".data, []⟩ : FileHistory) ∈ getAllFileHistories shadowStore ∧
    uriToPath "/a/b.txt".data = .ok "/a/b.txt".data ∧
    resolvePath "/".data "/a/b.txt".data = "/a/b.txt".data ∧
    findHistoryByFilePath "/".data shadowStore "/a/b.txt".data
      = .ok (some ⟨"/A/B.TXT".data, []⟩) ∧
    resolvePath "/".data "/A/B.TXT".data ≠ "/a/b.txt".data := by
  refine ⟨by decide, by decide, by decide, by decide, by decide⟩

/-- Witness for C1 amended, at the same store: the single-pass find? returns
the first (case-insensitive) match. -/
theorem shadowStore_decodes :
    ∀ h ∈ getAllFileHistories shadowStore, ∃ p, uriToPath h.originalFilePath = .ok p := by
  intro h hm
  have he : getAllFileHistories shadowStore
      = [⟨"/A/B.TXT".data, []⟩, ⟨"/a/b.txt".data, []⟩] := by decide
  rw [he] at hm
  simp only [List.mem_cons, List.not_mem_nil, or_false] at hm
  rcases hm with rfl | rfl
  · exact ⟨"/A/B.TXT".data, by decide⟩
  · exact ⟨"/a/b.txt".data, by decide⟩

/-- Witness for C1 amended, at the same store: the single-pass find? returns
the first (case-insensitive) match. -/
theorem findHistory_single_pass_witness :
    uriToPath "/a/b.txt".data = .ok "/a/b.txt".data ∧
    findHistoryByFilePath "/".data shadowStore "/a/b.txt".data
      = .ok ((getAllFileHistories shadowStore).find?
          (historyMatchesB "/".data (resolvePath "/".data "/a/b.txt".data))) :=
  ⟨by decide,
   findHistory_single_pass "/".data shadowStore "/a/b.txt".data "/a/b.txt".data
     (by decide) shadowStore_decodes⟩

end LocalHistory

namespace LocalHistory

/-- The entry a fully readable file contributes. -/
def mkEntry (dirPath : Str) (f : FileNode) : Option HistoryEntry :=
  match f.mtime, f.content with
  | some t, some c => some ⟨t, c, joinPath dirPath f.name, f.name⟩
  | _, _ => none

theorem readEntries_all_stats (dirPath : Str) (l : List FileNode)
    (hstat : ∀ f ∈ l, f.mtime.isSome = true) :
    readEntries dirPath l = some (l.filterMap (mkEntry dirPath)) := by
  induction l with
  | nil => rfl
  | cons f rest ih =>
    have hf := hstat f (by simp)
    cases hm : f.mtime with
    | none => rw [hm] at hf; simp at hf
    | some t =>
      have ih' := ih (fun g hg => hstat g (List.mem_cons_of_mem _ hg))
      cases hc : f.content with
      | none =>
        simp only [readEntries, hm, hc, ih']
        rw [List.filterMap_cons]
        simp [mkEntry, hm, hc]
      | some cnt =>
        simp only [readEntries, hm, hc, ih']
        rw [List.filterMap_cons]
        simp [mkEntry, hm, hc]

theorem readEntries_eq_none_iff (dirPath : Str) (l : List FileNode) :
    readEntries dirPath l = none ↔ ∃ f ∈ l, f.mtime = none := by
  induction l with
  | nil => simp [readEntries]
  | cons f rest ih =>
    cases hm : f.mtime with
    | none =>
      refine ⟨fun _ => ⟨f, by simp, hm⟩, fun _ => ?_⟩
      simp [readEntries, hm]
    | some t =>
      have hstep : (readEntries dirPath (f :: rest) = none)
          ↔ readEntries dirPath rest = none := by
        cases hc : f.content with
        | none => simp [readEntries, hm, hc]
        | some cnt =>
          simp only [readEntries, hm, hc]
          cases readEntries dirPath rest <;> simp
      rw [hstep, ih]
      constructor
      · rintro ⟨g, hg, hgm⟩
        exact ⟨g, List.mem_cons_of_mem _ hg, hgm⟩
      · rintro ⟨g, hg, hgm⟩
        rcases List.mem_cons.mp hg with rfl | hg'
        · rw [hm] at hgm
          cases hgm
        · exact ⟨g, hg', hgm⟩

/-- C2 amended: when every entry file's stat succeeds, a per-file content
read failure only skips that file: getFileHistory still returns a FileHistory
whose entries are exactly those of the readable files (a stat failure, by
contrast, aborts the whole directory; see the counterexample). -/
theorem content_failure_skips_file (root : Str) (d : HashDirState) (res : Str)
    (files : List FileNode)
    (hde : d.dirExists = true)
    (hej : d.entriesJson = some (some res)) (hres : res ≠ [])
    (hl : d.listing = some files)
    (hstat : ∀ f ∈ files, f.mtime.isSome = true) :
    ∃ entries, getFileHistory root d = some ⟨res, entries⟩ ∧
      entries.Perm ((files.filter (fun f => f.name != entriesJsonName)).filterMap
        (mkEntry (joinPath root d.name))) := by
  have hsorted : ∀ f ∈ List.insertionSort nodeNameLe
      (files.filter (fun f => f.name != entriesJsonName)), f.mtime.isSome = true := by
    intro f hf
    have hmem : f ∈ files.filter (fun f => f.name != entriesJsonName) :=
      (List.perm_insertionSort nodeNameLe _).mem_iff.mp hf
    exact hstat f (List.mem_filter.mp hmem).1
  refine ⟨List.insertionSort entryRecencyLe
      ((List.insertionSort nodeNameLe
        (files.filter (fun f => f.name != entriesJsonName))).filterMap
          (mkEntry (joinPath root d.name))), ?_, ?_⟩
  · simp only [getFileHistory, hde, hej, hl, not_true, Bool.not_true, if_false]
    rw [if_neg hres]
    rw [readEntries_all_stats _ _ hsorted]
  · exact (List.perm_insertionSort entryRecencyLe _).trans
      ((List.perm_insertionSort nodeNameLe _).filterMap _)

/-- A subdirectory with valid metadata where the stat of one file fails. -/
def statFailDir : HashDirState :=
  ⟨"d3".data, true, some (some "/x/y.txt".data),
   some [⟨"AAA".data, none, some "boom".data⟩, ⟨"BBB".data, some 5, some "ok".data⟩]⟩

/-- Counterexample for C2: a single failing stat (last-modified read) makes
getFileHistory return none for the whole directory instead of skipping that
file. -/
theorem stat_failure_aborts_directory :
    getFileHistory "/h".data statFailDir = none ∧
    statFailDir.dirExists = true ∧
    statFailDir.entriesJson = some (some "/x/y.txt".data) ∧
    statFailDir.listing ≠ none := by
  refine ⟨by decide, by decide, by decide, by decide⟩

/-- A subdirectory where one file's content read fails. -/
def contentFailDir : HashDirState :=
  ⟨"d4".data, true, some (some "/x/y.txt".data),
   some [⟨"AAA".data, some 7, none⟩, ⟨"BBB".data, some 5, some "ok".data⟩]⟩

/-- Witness for C2 amended: the directory with one unreadable content still
yields the other file's entry. -/
theorem content_failure_skips_file_witness :
    (contentFailDir.dirExists = true ∧
     contentFailDir.entriesJson = some (some "/x/y.txt".data) ∧
     "/x/y.txt".data ≠ ([] : Str) ∧
     (∀ f ∈ [(⟨"AAA".data, some 7, none⟩ : FileNode), ⟨"BBB".data, some 5, some "ok".data⟩],
        f.mtime.isSome = true)) ∧
    ∃ entries, getFileHistory "/h".data contentFailDir = some ⟨"/x/y.txt".data, entries⟩ ∧
      entries.Perm (([(⟨"AAA".data, some 7, none⟩ : FileNode),
          ⟨"BBB".data, some 5, some "ok".data⟩].filter
            (fun f => f.name != entriesJsonName)).filterMap
        (mkEntry (joinPath "/h".data contentFailDir.name))) :=
  ⟨⟨by decide, by decide, by decide, by decide⟩,
   content_failure_skips_file "/h".data contentFailDir "/x/y.txt".data
     [⟨"AAA".data, some 7, none⟩, ⟨"BBB".data, some 5, some "ok".data⟩]
     (by decide) (by decide) (by decide) (by decide) (by decide)⟩

/-- C9 amended: getFileHistory yields none exactly when the directory is
missing, the metadata is missing or unparseable, the resource field is
absent or empty, the listing fails, or some entry file's stat fails; and
getAllFileHistories contains exactly the non-none results, so a valid
directory with zero entry files contributes a FileHistory with an empty
entries sequence. -/
theorem getFileHistory_null_characterization (root : Str) (d : HashDirState) :
    (getFileHistory root d = none ↔
      (d.dirExists = false ∨ d.entriesJson = none ∨ d.entriesJson = some none ∨
       d.entriesJson = some (some []) ∨ d.listing = none ∨
       (∃ files, d.listing = some files ∧
         ∃ f ∈ files, f.name ≠ entriesJsonName ∧ f.mtime = none))) ∧
    (∀ name res, res ≠ [] →
      getFileHistory root ⟨name, true, some (some res), some []⟩ = some ⟨res, []⟩) ∧
    (∀ s : Store, ∀ h, h ∈ getAllFileHistories s ↔
      (s.rootExists = true ∧ ∃ dirs, s.rootListing = some dirs ∧
        ∃ d₂ ∈ dirs, getFileHistory s.rootPath d₂ = some h)) := by
  refine ⟨?_, ?_, ?_⟩
  · obtain ⟨name, de, ej, li⟩ := d
    cases de with
    | false => simp [getFileHistory]
    | true =>
      rcases ej with _ | (_ | res)
      · simp [getFileHistory]
      · simp [getFileHistory]
      · by_cases hres : res = []
        · subst hres
          simp [getFileHistory]
        · rcases li with _ | files
          · simp [getFileHistory, hres]
          · have hmatch : (getFileHistory root ⟨name, true, some (some res), some files⟩ = none)
                ↔ readEntries (joinPath root name)
                    (List.insertionSort nodeNameLe
                      (files.filter (fun f => f.name != entriesJsonName))) = none := by
              simp only [getFileHistory, not_true, Bool.not_true, if_false]
              rw [if_neg hres]
              cases readEntries (joinPath root name)
                  (List.insertionSort nodeNameLe
                    (files.filter (fun f => f.name != entriesJsonName))) <;> simp
            rw [hmatch, readEntries_eq_none_iff]
            simp only [reduceCtorEq, Option.some.injEq, hres, false_or, or_false,
              exists_eq_left']
            constructor
            · rintro ⟨f, hf, hfm⟩
              have hmem := List.mem_filter.mp
                ((List.perm_insertionSort nodeNameLe _).mem_iff.mp hf)
              exact ⟨f, hmem.1, by simpa using hmem.2, hfm⟩
            · rintro ⟨f, hf, hfn, hfm⟩
              refine ⟨f, ?_, hfm⟩
              exact (List.perm_insertionSort nodeNameLe _).mem_iff.mpr
                (List.mem_filter.mpr ⟨hf, by simpa using hfn⟩)
  · intro name res hres
    simp only [getFileHistory, not_true, Bool.not_true, if_false]
    rw [if_neg hres]
    rfl
  · intro s h
    unfold getAllFileHistories
    split
    · rename_i hre
      simp only [List.not_mem_nil, false_iff]
      rintro ⟨h1, -⟩
      exact hre (by simp [h1])
    · rename_i hre
      have hre' : s.rootExists = true := by
        by_contra hc
        exact hre (by simpa using hc)
      split
      · rename_i hli
        simp only [List.not_mem_nil, false_iff]
        rintro ⟨-, dirs, hdirs, -⟩
        rw [hli] at hdirs
        cases hdirs
      · rename_i dirs hli
        rw [List.mem_filterMap]
        constructor
        · rintro ⟨d₂, hd₂, hget⟩
          exact ⟨hre', dirs, hli, d₂, hd₂, hget⟩
        · rintro ⟨-, dirs₂, hdirs₂, d₂, hd₂, hget⟩
          rw [hli] at hdirs₂
          injection hdirs₂ with hdirs₂
          subst hdirs₂
          exact ⟨d₂, hd₂, hget⟩

/-- Counterexample for C9: a directory satisfying none of the claim's four
null conditions (it exists, has parseable metadata with a resource, and its
listing succeeds) still yields none, because one entry file's stat fails. -/
theorem getFileHistory_null_beyond_listed :
    getFileHistory "/h".data statFailDir = none ∧
    statFailDir.dirExists ≠ false ∧
    statFailDir.entriesJson ≠ none ∧
    statFailDir.entriesJson ≠ some none ∧
    (statFailDir.entriesJson = some (some "/x/y.txt".data) ∧ "/x/y.txt".data ≠ ([] : Str)) ∧
    statFailDir.listing ≠ none := by
  refine ⟨by decide, by decide, by decide, by decide, ⟨by decide, by decide⟩, by decide⟩

end LocalHistory

namespace LocalHistory

theorem parseLiteralPattern_escapeRegExp (t : Str) :
    parseLiteralPattern (escapeRegExp t) = some t := by
  induction t with
  | nil => rfl
  | cons c s ih =>
    by_cases hm : regexMeta.contains c
    · rw [escapeRegExp, if_pos hm]
      rw [parseLiteralPattern.eq_def]
      dsimp only
      rw [if_pos rfl, if_pos hm, ih]
      rfl
    · have hc : ¬ c = '\\' := by
        intro he
        subst he
        exact hm (by decide)
      rw [escapeRegExp, if_neg hm]
      rw [parseLiteralPattern.eq_def]
      dsimp only
      rw [if_neg hc, if_neg hm, ih]
      rfl

theorem countLoop_pos_iff (pat : Str) (hp : pat ≠ []) (l : Str) :
    (0 < countLoop pat l) ↔ containsSub pat l = true := by
  induction l with
  | nil =>
    rw [countLoop, containsSub]
    obtain ⟨c, pat', rfl⟩ : ∃ c pat', pat = c :: pat' := by
      cases pat with
      | nil => exact absurd rfl hp
      | cons c pat' => exact ⟨c, pat', rfl⟩
    simp [List.isPrefixOf]
  | cons c rest ih =>
    rw [countLoop, containsSub]
    by_cases hpre : List.isPrefixOf pat (c :: rest) = true
    · simp [hpre]
    · simp only [hpre, if_false, Bool.false_or]
      simpa using ih

theorem countOccurrences_pos_iff (pat l : Str) :
    (0 < countOccurrences pat l) ↔ containsSub pat l = true := by
  by_cases hp : pat = []
  · subst hp
    rw [countOccurrences, if_pos rfl]
    cases l <;> simp [containsSub, List.isPrefixOf]
  · rw [countOccurrences, if_neg hp]
    exact countLoop_pos_iff pat hp l

theorem mem_searchEntriesLoop (file pattern : Str) (cs : Bool) (r : SearchResult)
    (entries : List HistoryEntry) :
    ∀ i : Nat,
    r ∈ searchEntriesLoop file pattern cs i entries ↔
      ∃ j e, entries.get? j = some e ∧ 0 < jsMatchCount pattern cs e.content ∧
        r = ⟨file, i + j, e.timestamp, jsMatchCount pattern cs e.content⟩ := by
  induction entries with
  | nil =>
    intro i
    simp [searchEntriesLoop]
  | cons e rest ih =>
    intro i
    rw [searchEntriesLoop, List.mem_append]
    constructor
    · rintro (hin | hin)
      · by_cases hcnt : 0 < jsMatchCount pattern cs e.content
        · rw [if_pos hcnt] at hin
          simp only [List.mem_singleton] at hin
          exact ⟨0, e, by simp, hcnt, by simpa using hin⟩
        · rw [if_neg hcnt] at hin
          simp at hin
      · obtain ⟨j, e', hj, hc, hr⟩ := (ih (i + 1)).mp hin
        refine ⟨j + 1, e', by simpa using hj, hc, ?_⟩
        rw [hr]
        congr 1
        omega
    · rintro ⟨j, e', hj, hc, hr⟩
      cases j with
      | zero =>
        simp only [List.get?_cons_zero, Option.some.injEq] at hj
        subst hj
        left
        rw [if_pos hc]
        simp [hr]
      | succ j' =>
        right
        refine (ih (i + 1)).mpr ⟨j', e', by simpa using hj, hc, ?_⟩
        rw [hr]
        congr 1
        omega

theorem mem_searchLoop (pattern : Str) (cs : Bool) (r : SearchResult) :
    ∀ l : List FileHistory,
    r ∈ searchLoop pattern cs l ↔
      ∃ h ∈ l, r ∈ searchEntriesLoop h.originalFilePath pattern cs 0 h.entries := by
  intro l
  induction l with
  | nil => simp [searchLoop]
  | cons h t ih =>
    rw [searchLoop, List.mem_append, ih]
    constructor
    · rintro (hin | ⟨g, hg, hin⟩)
      · exact ⟨h, by simp, hin⟩
      · exact ⟨g, List.mem_cons_of_mem _ hg, hin⟩
    · rintro ⟨g, hg, hin⟩
      rcases List.mem_cons.mp hg with rfl | hg'
      · exact Or.inl hin
      · exact Or.inr ⟨g, hg', hin⟩

/-- C7: the escaped search term compiles to a literal pattern (every regex
metacharacter in the term is literal), and searchHistoryContent reports a
record for entry index i of a history exactly when the entry's content
contains the term — case folded unless caseSensitive — with the record
carrying the occurrence count and the entry's index in the recency-ordered
entries sequence. -/
theorem search_literal_matching (s : Store) (term : Str) (cs : Bool) :
    parseLiteralPattern (escapeRegExp term) = some term ∧
    ∀ r : SearchResult, r ∈ searchHistoryContent s term cs ↔
      ∃ h ∈ getAllFileHistories s, ∃ e, h.entries.get? r.entryIndex = some e ∧
        r.file = h.originalFilePath ∧ r.timestamp = e.timestamp ∧
        containsSub (if cs then term else lowerStr term)
          (if cs then e.content else lowerStr e.content) = true ∧
        r.matchCount = countOccurrences (if cs then term else lowerStr term)
          (if cs then e.content else lowerStr e.content) := by
  have hjs : ∀ content, jsMatchCount (escapeRegExp term) cs content
      = countOccurrences (if cs then term else lowerStr term)
          (if cs then content else lowerStr content) := by
    intro content
    rw [jsMatchCount, parseLiteralPattern_escapeRegExp]
    cases cs <;> simp
  refine ⟨parseLiteralPattern_escapeRegExp term, fun r => ?_⟩
  rw [searchHistoryContent, mem_searchLoop]
  constructor
  · rintro ⟨h, hh, hin⟩
    obtain ⟨j, e, hj, hc, hr⟩ := (mem_searchEntriesLoop _ _ _ _ _ 0).mp hin
    rw [hjs] at hc
    subst hr
    refine ⟨h, hh, e, by simpa using hj, rfl, rfl, ?_, by rw [hjs]⟩
    exact (countOccurrences_pos_iff _ _).mp hc
  · rintro ⟨h, hh, e, hj, hf, ht, hcont, hcnt⟩
    refine ⟨h, hh, (mem_searchEntriesLoop _ _ _ _ _ 0).mpr
      ⟨r.entryIndex, e, ?_, ?_, ?_⟩⟩
    · exact hj
    · rw [hjs]
      exact (countOccurrences_pos_iff _ _).mpr hcont
    · obtain ⟨rf, ri, rt, rc⟩ := r
      simp only at hf ht hcnt ⊢
      rw [hf, ht, hcnt, hjs]
      congr 1
      omega

end LocalHistory

namespace LocalHistory

/-- Decimal parse, the left inverse used to show renderNat is injective. -/
def parseNatDigits (s : Str) : Nat := s.foldl (fun a c => a * 10 + (c.toNat - 48)) 0

theorem digitChar_toNat (d : Nat) (h : d < 10) : (digitChar d).toNat = 48 + d := by
  interval_cases d <;> decide

theorem parseNatDigits_renderNatAux :
    ∀ fuel n, n < 10 ^ fuel → parseNatDigits (renderNatAux fuel n) = n := by
  intro fuel
  induction fuel with
  | zero =>
    intro n hn
    have : n = 0 := by simpa using hn
    subst this
    rfl
  | succ fuel ih =>
    intro n hn
    rw [renderNatAux]
    by_cases h10 : n < 10
    · rw [if_pos h10]
      show (0 * 10 + ((digitChar n).toNat - 48)) = n
      rw [digitChar_toNat n h10]
      omega
    · rw [if_neg h10]
      rw [parseNatDigits, List.foldl_append]
      have hdiv : n / 10 < 10 ^ fuel := by
        rw [Nat.div_lt_iff_lt_mul (by omega)]
        calc n < 10 ^ (fuel + 1) := hn
          _ = 10 ^ fuel * 10 := by rw [Nat.pow_succ]
      show ((parseNatDigits (renderNatAux fuel (n / 10))) * 10
          + ((digitChar (n % 10)).toNat - 48)) = n
      rw [ih (n / 10) hdiv, digitChar_toNat _ (Nat.mod_lt _ (by omega))]
      omega

theorem parseNatDigits_renderNat (n : Nat) : parseNatDigits (renderNat n) = n := by
  apply parseNatDigits_renderNatAux
  calc n < 10 ^ n := Nat.lt_pow_self (by omega) n
    _ ≤ 10 ^ (n + 1) := Nat.pow_le_pow_right (by omega) (Nat.le_succ n)

theorem backupPath_inj (t : Str) {n₁ n₂ : Nat}
    (h : backupPath t n₁ = backupPath t n₂) : n₁ = n₂ := by
  rw [backupPath, backupPath, List.append_assoc, List.append_assoc] at h
  have h₁ := List.append_cancel_left h
  have h₂ := List.append_cancel_left h₁
  have h₃ := congrArg parseNatDigits h₂
  rwa [parseNatDigits_renderNat, parseNatDigits_renderNat] at h₃

theorem renderNat_ne_nil (n : Nat) : renderNat n ≠ [] := by
  rw [renderNat, renderNatAux]
  by_cases h : n < 10
  · rw [if_pos h]
    simp
  · rw [if_neg h]
    simp

theorem length_dropWhile_le {α : Type} (q : α → Bool) (l : List α) :
    (l.dropWhile q).length ≤ l.length := by
  induction l with
  | nil => simp
  | cons a t ih =>
    rw [List.dropWhile_cons]
    split
    · exact le_trans ih (by simp)
    · simp

theorem dirname_length_le (p : Str) : (dirname p).length ≤ p.length + 1 := by
  rw [dirname]
  dsimp only
  split
  · split <;> simp
  · split
    · split <;> simp
    · calc ((p.reverse.dropWhile (· == '/')).dropWhile
              (· != '/') |>.dropWhile (· == '/')).reverse.length
          = ((p.reverse.dropWhile (· == '/')).dropWhile
              (· != '/') |>.dropWhile (· == '/')).length := by rw [List.length_reverse]
        _ ≤ ((p.reverse.dropWhile (· == '/')).dropWhile (· != '/')).length :=
            length_dropWhile_le _ _
        _ ≤ (p.reverse.dropWhile (· == '/')).length := length_dropWhile_le _ _
        _ ≤ p.reverse.length := length_dropWhile_le _ _
        _ = p.length := List.length_reverse p
        _ ≤ p.length + 1 := by omega

theorem backupPath_length (t : Str) (n : Nat) :
    (backupPath t n).length = t.length + 8 + (renderNat n).length := by
  rw [backupPath]
  simp [List.length_append]
  omega

theorem dirname_ne_backupPath (t : Str) (n : Nat) : dirname t ≠ backupPath t n := by
  intro h
  have h1 := dirname_length_le t
  have h2 : 1 ≤ (renderNat n).length := by
    cases hr : renderNat n with
    | nil => exact absurd hr (renderNat_ne_nil n)
    | cons a l => simp
  have h3 := backupPath_length t n
  have h4 := congrArg List.length h
  omega

theorem backupPath_ne_self (t : Str) (n : Nat) : backupPath t n ≠ t := by
  intro h
  have h2 : 1 ≤ (renderNat n).length := by
    cases hr : renderNat n with
    | nil => exact absurd hr (renderNat_ne_nil n)
    | cons a l => simp
  have h3 := backupPath_length t n
  have h4 := congrArg List.length h
  omega

theorem FS.lookupFile_setFile_same (fs : FS) (p c : Str) :
    (fs.setFile p c).lookupFile p = some c := by
  simp [FS.lookupFile, FS.setFile, List.lookup_cons]

theorem FS.lookupFile_setFile_ne (fs : FS) (p c q : Str) (h : q ≠ p) :
    (fs.setFile p c).lookupFile q = fs.lookupFile q := by
  simp only [FS.lookupFile, FS.setFile, List.lookup_cons]
  rw [show (q == p) = false from beq_eq_false_iff_ne.mpr h]

end LocalHistory

namespace LocalHistory

/-- C10: with createBackup requested, a valid index, and a resolved restore
target that does not exist, no backup is made, the target is written with the
selected entry's content (the only file change), and the result is the
no-backup success message. -/
theorem restore_missing_target_no_backup (cwd : Str) (s : Store) (fs : FS)
    (filePath : Str) (entryIndex : Int) (now : Nat) (h : FileHistory)
    (op ip tp : Str)
    (hfind : findHistoryByFilePath cwd s filePath = .ok (some h))
    (hidx : 0 ≤ entryIndex ∧ entryIndex < (h.entries.length : Int))
    (hop : uriToPath h.originalFilePath = .ok op)
    (hip : uriToPath filePath = .ok ip)
    (htp : (if fs.existsB ip then ip else op) = tp)
    (hmiss : fs.existsB tp = false)
    (hdt : dirname tp ≠ tp) :
    ∃ fs' : FS,
      restoreFromHistory cwd s fs filePath entryIndex true now
        = (.ok .restoredNoBackup, fs') ∧
      fs'.lookupFile tp = some (h.entries.getD entryIndex.toNat default).content ∧
      (∀ q, q ≠ tp → fs'.lookupFile q = fs.lookupFile q) ∧
      (∀ q, ((fs'.lookupFile q).isSome = true ↔
        (q = tp ∨ (fs.lookupFile q).isSome = true))) := by
  obtain ⟨hi1, hi2⟩ := hidx
  have hnr : ¬ (entryIndex < 0 ∨ (h.entries.length : Int) ≤ entryIndex) := by omega
  have hm : (fs.files.lookup tp).isSome = false ∧ fs.dirs.contains tp = false := by
    simpa [FS.existsB, Bool.or_eq_false_iff] using hmiss
  have hmain : restoreFromHistory cwd s fs filePath entryIndex true now
      = (.ok .restoredNoBackup,
         (if fs.existsB (dirname tp) then fs else fs.addDir (dirname tp)).setFile tp
           (h.entries.getD entryIndex.toNat default).content) := by
    rw [restoreFromHistory, hfind]
    dsimp only
    rw [if_neg hnr]
    rw [hop, hip]
    dsimp only
    rw [htp]
    by_cases hdir : fs.existsB (dirname tp)
    · rw [if_pos hdir]
      have hx : (true ∧ fs.existsB tp = true) = False := by
        simp [hmiss]
      rw [if_neg (by simp [hmiss])]
      rw [if_neg (by simpa using hm.2)]
    · rw [if_neg hdir]
      have hfx : (fs.addDir (dirname tp)).existsB tp = false := by
        simp only [FS.addDir, FS.existsB, List.contains_cons]
        rw [show (tp == dirname tp) = false from beq_eq_false_iff_ne.mpr (fun he => hdt he.symm)]
        simpa [FS.existsB, Bool.or_eq_false_iff] using hmiss
      rw [if_neg (by simp [hfx])]
      rw [if_neg (by
        simp only [FS.addDir, List.contains_cons]
        rw [show (tp == dirname tp) = false from beq_eq_false_iff_ne.mpr (fun he => hdt he.symm)]
        simpa using hm.2)]
  refine ⟨_, hmain, ?_, ?_, ?_⟩
  · exact FS.lookupFile_setFile_same _ _ _
  · intro q hq
    rw [FS.lookupFile_setFile_ne _ _ _ _ hq]
    by_cases hdir : fs.existsB (dirname tp) <;> simp [hdir, FS.lookupFile, FS.addDir]
  · intro q
    by_cases hq : q = tp
    · subst hq
      rw [FS.lookupFile_setFile_same]
      simp
    · rw [FS.lookupFile_setFile_ne _ _ _ _ hq]
      have : (if fs.existsB (dirname tp) then fs
          else fs.addDir (dirname tp)).lookupFile q = fs.lookupFile q := by
        by_cases hdir : fs.existsB (dirname tp) <;> simp [hdir, FS.lookupFile, FS.addDir]
      rw [this]
      simp [hq]

end LocalHistory

namespace LocalHistory

/-- C6: with createBackup requested, a valid index, and an existing target
file, exactly one new file is created — the backup at the time-stamped
sibling path, which holds the pre-call target content and whose name differs
for different times — and the target afterwards holds the selected entry's
content exactly. -/
theorem restore_backup_roundtrip (cwd : Str) (s : Store) (fs : FS)
    (filePath : Str) (entryIndex : Int) (now : Nat) (h : FileHistory)
    (op ip tp oldContent : Str)
    (hfind : findHistoryByFilePath cwd s filePath = .ok (some h))
    (hidx : 0 ≤ entryIndex ∧ entryIndex < (h.entries.length : Int))
    (hop : uriToPath h.originalFilePath = .ok op)
    (hip : uriToPath filePath = .ok ip)
    (htp : (if fs.existsB ip then ip else op) = tp)
    (hcur : fs.lookupFile tp = some oldContent)
    (htd : fs.dirs.contains tp = false)
    (hbf : fs.lookupFile (backupPath tp now) = none)
    (hbd : fs.dirs.contains (backupPath tp now) = false) :
    ∃ fs' : FS,
      restoreFromHistory cwd s fs filePath entryIndex true now
        = (.ok (.restoredWithBackup (backupPath tp now)), fs') ∧
      fs'.lookupFile tp = some (h.entries.getD entryIndex.toNat default).content ∧
      fs'.lookupFile (backupPath tp now) = some oldContent ∧
      (∀ q, q ≠ tp → q ≠ backupPath tp now → fs'.lookupFile q = fs.lookupFile q) ∧
      (∀ q, ((fs'.lookupFile q).isSome = true ↔
        (q = backupPath tp now ∨ (fs.lookupFile q).isSome = true))) ∧
      (∀ n₁ n₂ : Nat, backupPath tp n₁ = backupPath tp n₂ → n₁ = n₂) := by
  obtain ⟨hi1, hi2⟩ := hidx
  have hnr : ¬ (entryIndex < 0 ∨ (h.entries.length : Int) ≤ entryIndex) := by omega
  have hlk : fs.files.lookup tp = some oldContent := hcur
  have hmain : restoreFromHistory cwd s fs filePath entryIndex true now
      = (.ok (.restoredWithBackup (backupPath tp now)),
         (((if fs.existsB (dirname tp) then fs
            else fs.addDir (dirname tp)).setFile (backupPath tp now) oldContent).setFile tp
           (h.entries.getD entryIndex.toNat default).content)) := by
    rw [restoreFromHistory, hfind]
    dsimp only
    rw [if_neg hnr]
    rw [hop, hip]
    dsimp only
    rw [htp]
    by_cases hdir : fs.existsB (dirname tp)
    · rw [if_pos hdir]
      rw [if_pos (by simp [FS.existsB, hlk])]
      rw [show FS.lookupFile fs tp = some oldContent from hcur]
      dsimp only
      rw [if_neg (by simpa using hbd)]
      rw [if_neg (by simp only [FS.setFile]; simpa using htd)]
    · rw [if_neg hdir]
      have hdt : dirname tp ≠ tp := by
        intro he
        exact hdir (by rw [he]; simp [FS.existsB, hlk])
      rw [if_pos (by simp [FS.addDir, FS.existsB, hlk])]
      rw [show FS.lookupFile (fs.addDir (dirname tp)) tp = some oldContent from hcur]
      dsimp only
      rw [if_neg (by
        simp only [FS.addDir, List.contains_cons]
        rw [show (backupPath tp now == dirname tp) = false from
          beq_eq_false_iff_ne.mpr (fun he => dirname_ne_backupPath tp now he.symm)]
        simpa using hbd)]
      rw [if_neg (by
        simp only [FS.setFile, FS.addDir, List.contains_cons]
        rw [show (tp == dirname tp) = false from
          beq_eq_false_iff_ne.mpr (fun he => hdt he.symm)]
        simpa using htd)]
  have hfiles : ∀ q, (if fs.existsB (dirname tp) then fs
      else fs.addDir (dirname tp)).lookupFile q = fs.lookupFile q := by
    intro q
    by_cases hdir : fs.existsB (dirname tp) <;> simp [hdir, FS.lookupFile, FS.addDir]
  refine ⟨_, hmain, ?_, ?_, ?_, ?_, fun n₁ n₂ => backupPath_inj tp⟩
  · exact FS.lookupFile_setFile_same _ _ _
  · rw [FS.lookupFile_setFile_ne _ _ _ _ (backupPath_ne_self tp now)]
    rw [FS.lookupFile_setFile_same]
  · intro q hq hqb
    rw [FS.lookupFile_setFile_ne _ _ _ _ hq, FS.lookupFile_setFile_ne _ _ _ _ hqb]
    exact hfiles q
  · intro q
    by_cases hq : q = tp
    · subst hq
      rw [FS.lookupFile_setFile_same]
      simp [hcur]
    · rw [FS.lookupFile_setFile_ne _ _ _ _ hq]
      by_cases hqb : q = backupPath tp now
      · subst hqb
        rw [FS.lookupFile_setFile_same]
        simp
      · rw [FS.lookupFile_setFile_ne _ _ _ _ hqb, hfiles q]
        simp [hqb]

end LocalHistory

namespace LocalHistory

/-- Target file system for the backup witness: the target already exists. -/
def c6fs : FS := ⟨[("/x/y.txt".data, "current".data)], []⟩

/-- The resolved restore target of the witnesses. -/
def c6tp : Str := "/x/y.txt".data

/-- Witness for C6 at the sample store: restoring entry 0 over an existing
target creates exactly the time-stamped backup holding the old content and
rewrites the target to the entry content. -/
theorem restore_backup_roundtrip_witness :
    (findHistoryByFilePath "/".data sampleStore "/x/y.txt".data = .ok (some sampleHistory) ∧
     c6fs.lookupFile c6tp = some "current".data) ∧
    ∃ fs' : FS,
      restoreFromHistory "/".data sampleStore c6fs "/x/y.txt".data 0 true 42
        = (.ok (.restoredWithBackup (backupPath c6tp 42)), fs') ∧
      fs'.lookupFile c6tp
        = some (sampleHistory.entries.getD (0 : Int).toNat default).content ∧
      fs'.lookupFile (backupPath c6tp 42) = some "current".data ∧
      (∀ q, q ≠ c6tp → q ≠ backupPath c6tp 42 → fs'.lookupFile q = c6fs.lookupFile q) ∧
      (∀ q, ((fs'.lookupFile q).isSome = true ↔
        (q = backupPath c6tp 42 ∨ (c6fs.lookupFile q).isSome = true))) ∧
      (∀ n₁ n₂ : Nat, backupPath c6tp n₁ = backupPath c6tp n₂ → n₁ = n₂) :=
  ⟨⟨by decide, by decide⟩,
   restore_backup_roundtrip "/".data sampleStore c6fs "/x/y.txt".data 0 42 sampleHistory
     "/x/y.txt".data "/x/y.txt".data c6tp "current".data
     (by decide) ⟨by decide, by decide⟩ (by decide) (by decide) (by decide) (by decide)
     (by decide) (by decide) (by decide)⟩

/-- Witness for C10: restoring onto an absent target with the backup flag set
writes the entry content without creating any backup. -/
theorem restore_missing_target_no_backup_witness :
    (findHistoryByFilePath "/".data sampleStore "/x/y.txt".data = .ok (some sampleHistory) ∧
     (FS.mk [] []).existsB c6tp = false) ∧
    ∃ fs' : FS,
      restoreFromHistory "/".data sampleStore ⟨[], []⟩ "/x/y.txt".data 0 true 42
        = (.ok .restoredNoBackup, fs') ∧
      fs'.lookupFile c6tp
        = some (sampleHistory.entries.getD (0 : Int).toNat default).content ∧
      (∀ q, q ≠ c6tp → fs'.lookupFile q = (FS.mk [] []).lookupFile q) ∧
      (∀ q, ((fs'.lookupFile q).isSome = true ↔
        (q = c6tp ∨ ((FS.mk [] []).lookupFile q).isSome = true))) :=
  ⟨⟨by decide, by decide⟩,
   restore_missing_target_no_backup "/".data sampleStore ⟨[], []⟩ "/x/y.txt".data 0 42
     sampleHistory "/x/y.txt".data "/x/y.txt".data c6tp
     (by decide) ⟨by decide, by decide⟩ (by decide) (by decide) (by decide) (by decide)
     (by decide)⟩

end LocalHistory
